import Mathlib

/-
Verification of the kambo-graph library (adjacency-list `SimpleGraph` in
`src/graphs/simple.rs`, trait defaults in `src/traits/graph.rs`, weighted
capability in `src/traits/weighted.rs`, errors in `src/error.rs`).

`HashMap<K, A>` is modelled as an association list `List (K × A)` together
with the operations the Rust code uses (`get`/`contains_key`/`insert`/
`remove`/`retain`, plus in-place mutation of values through `get_mut` and
`values_mut`).  `HashSet<V>` is modelled as `Finset V`.
-/

set_option autoImplicit false
set_option linter.unusedSectionVars false

namespace KamboGraph

namespace AL

variable {K A : Type} [DecidableEq K]

/-- `HashMap::get`: the value stored at key `k`, if any. -/
def lookup : List (K × A) → K → Option A
  | [], _ => none
  | p :: ps, k => if p.1 = k then some p.2 else lookup ps k

/-- `HashMap::contains_key`. -/
def contains (l : List (K × A)) (k : K) : Bool :=
  (lookup l k).isSome

/-- `HashMap::insert`: replaces the value if the key is present, otherwise
adds the entry. -/
def insert : List (K × A) → K → A → List (K × A)
  | [], k, a => [(k, a)]
  | p :: ps, k, a => if p.1 = k then (k, a) :: ps else p :: insert ps k a

/-- `HashMap::remove` (value-discarding part): drops every entry at key `k`. -/
def erase (l : List (K × A)) (k : K) : List (K × A) :=
  l.filter (fun p => decide (p.1 ≠ k))

/-- `HashMap::values_mut` with a per-value update applied to every entry. -/
def mapVals (f : A → A) (l : List (K × A)) : List (K × A) :=
  l.map (fun p => (p.1, f p.2))

end AL

/-- `GraphError` from `src/error.rs`. -/
inductive GraphError where
  | VertexNotFound
  | VertexAlreadyExists
  | EdgeAlreadyExists
  | EdgeNotFound
  | InvalidOperation (reason : String)
  deriving DecidableEq

/-- `SimpleGraph<V, W>` from `src/graphs/simple.rs`: adjacency lists in
`vertices`, the weight map in `edges`, and the directedness flag. -/
structure SimpleGraph (V W : Type) [DecidableEq V] where
  vertices : List (V × Finset V)
  edges : List ((V × V) × W)
  directed : Bool

section Ops

variable {V W : Type} [DecidableEq V]

/-- `SimpleGraph::new(directed)`. -/
def new (directed : Bool) : SimpleGraph V W :=
  { vertices := [], edges := [], directed := directed }

/-- `SimpleGraph::new_directed`. -/
def new_directed : SimpleGraph V W := new true

/-- `SimpleGraph::new_undirected`. -/
def new_undirected : SimpleGraph V W := new false

/-- `Graph::vertices` for `SimpleGraph` (`self.vertices.keys()`). -/
def verticesList (g : SimpleGraph V W) : List V :=
  g.vertices.map Prod.fst

/-- `Graph::neighbors` for `SimpleGraph` (`self.vertices.get(v)`). -/
def neighbors (g : SimpleGraph V W) (v : V) : Option (Finset V) :=
  AL.lookup g.vertices v

/-- `Graph::contains_vertex` for `SimpleGraph`. -/
def contains_vertex (g : SimpleGraph V W) (v : V) : Bool :=
  AL.contains g.vertices v

/-- `Graph::contains_edge` for `SimpleGraph`: note that it consults the
weight map `self.edges`, not the adjacency lists. -/
def contains_edge (g : SimpleGraph V W) (u v : V) : Bool :=
  AL.contains g.edges (u, v)

/-- Default `Graph::order` (`self.vertices().count()`). -/
def order (g : SimpleGraph V W) : Nat :=
  (verticesList g).length

/-- Default `Graph::edge_count`: sum of neighbor counts, halved for
undirected graphs. -/
def edge_count (g : SimpleGraph V W) : Nat :=
  if g.directed then
    ((verticesList g).map (fun v =>
      match neighbors g v with
      | some n => n.card
      | none => 0)).sum
  else
    ((verticesList g).map (fun v =>
      match neighbors g v with
      | some n => n.card
      | none => 0)).sum / 2

/-- Default `Graph::degree`. -/
def degree (g : SimpleGraph V W) (v : V) : Option Nat :=
  if !contains_vertex g v then none
  else (neighbors g v).map Finset.card

/-- `GraphMut::add_vertex` for `SimpleGraph` (it reports duplicates with
`EdgeAlreadyExists`). -/
def add_vertex (g : SimpleGraph V W) (vertex : V) :
    Except GraphError Unit × SimpleGraph V W :=
  if contains_vertex g vertex then (Except.error GraphError.EdgeAlreadyExists, g)
  else (Except.ok (), { g with vertices := AL.insert g.vertices vertex ∅ })

/-- `GraphMut::remove_vertex` for `SimpleGraph`: drops the vertex, retains
only weight entries not incident to it, and erases it from every remaining
neighbor set. -/
def remove_vertex (g : SimpleGraph V W) (vertex : V) :
    Except GraphError Unit × SimpleGraph V W :=
  if !contains_vertex g vertex then (Except.error GraphError.VertexNotFound, g)
  else
    (Except.ok (),
      { vertices := AL.mapVals (fun nbrs => nbrs.erase vertex)
          (AL.erase g.vertices vertex),
        edges := g.edges.filter (fun p => decide (p.1.1 ≠ vertex) && decide (p.1.2 ≠ vertex)),
        directed := g.directed })

/-- `self.vertices.get_mut(a).unwrap().insert(b)`: `none` models the panic
of `unwrap` on a missing key. -/
def insertNbr (g : SimpleGraph V W) (a b : V) : Option (SimpleGraph V W) :=
  (AL.lookup g.vertices a).map
    (fun s => { g with vertices := AL.insert g.vertices a (Insert.insert b s) })

/-- `self.vertices.get_mut(a).unwrap().remove(&b)`. -/
def eraseNbr (g : SimpleGraph V W) (a b : V) : Option (SimpleGraph V W) :=
  (AL.lookup g.vertices a).map
    (fun s => { g with vertices := AL.insert g.vertices a (s.erase b) })

/-- `GraphMut::add_edge` for `SimpleGraph`; `none` models a panic. -/
def add_edge (g : SimpleGraph V W) (u v : V) :
    Option (Except GraphError Unit × SimpleGraph V W) :=
  if !contains_vertex g u || !contains_vertex g v then
    some (Except.error GraphError.VertexNotFound, g)
  else if contains_edge g u v then
    some (Except.error GraphError.EdgeAlreadyExists, g)
  else
    (insertNbr g u v).bind (fun g1 =>
      if g.directed then some (Except.ok (), g1)
      else (insertNbr g1 v u).map (fun g2 => (Except.ok (), g2)))

/-- `GraphMut::remove_edge` for `SimpleGraph`: the existence test consults
the weight map; on success it erases the `(u, v)` weight entry (only that
one) and updates the adjacency lists. -/
def remove_edge (g : SimpleGraph V W) (u v : V) :
    Option (Except GraphError Unit × SimpleGraph V W) :=
  if !contains_edge g u v then
    some (Except.error GraphError.EdgeNotFound, g)
  else
    let g1 : SimpleGraph V W := { g with edges := AL.erase g.edges (u, v) }
    (eraseNbr g1 u v).bind (fun g2 =>
      if g.directed then some (Except.ok (), g2)
      else (eraseNbr g2 v u).map (fun g3 => (Except.ok (), g3)))

/-- The isolated-vertex set computed by `remove_isolated_vertices`
(`neighbors.is_empty()` over the adjacency entries). -/
def isolated_vertices (g : SimpleGraph V W) : List V :=
  (g.vertices.filter (fun p => decide (p.2 = (∅ : Finset V)))).map Prod.fst

/-- The `for vertex in &isolated_vertices { self.remove_vertex(vertex)?; }`
loop. -/
def remove_vertices_loop :
    List V → SimpleGraph V W → Except GraphError Unit × SimpleGraph V W
  | [], g => (Except.ok (), g)
  | x :: xs, g =>
    match remove_vertex g x with
    | (Except.ok _, g') => remove_vertices_loop xs g'
    | (Except.error e, g') => (Except.error e, g')

/-- `GraphMut::remove_isolated_vertices` for `SimpleGraph`. -/
def remove_isolated_vertices (g : SimpleGraph V W) :
    Except GraphError Unit × SimpleGraph V W :=
  if (isolated_vertices g).isEmpty then (Except.error GraphError.VertexNotFound, g)
  else remove_vertices_loop (isolated_vertices g) g

/-- `WeightedGraph::edge_weight` for `SimpleGraph`. -/
def edge_weight (g : SimpleGraph V W) (u v : V) : Option W :=
  AL.lookup g.edges (u, v)

/-- `WeightedGraphMut::set_edge_weight` for `SimpleGraph`: ensures the
adjacency (mirrored when undirected) and then upserts the weight for
`(u, v)` (and `(v, u)` when undirected). -/
def set_edge_weight (g : SimpleGraph V W) (u v : V) (weight : W) :
    Option (Except GraphError Unit × SimpleGraph V W) :=
  if !contains_vertex g u || !contains_vertex g v then
    some (Except.error GraphError.VertexNotFound, g)
  else
    (insertNbr g u v).bind (fun g1 =>
      (if g.directed then some g1 else insertNbr g1 v u).map (fun g2 =>
        let g3 : SimpleGraph V W := { g2 with edges := AL.insert g2.edges (u, v) weight }
        if g.directed then (Except.ok (), g3)
        else (Except.ok (), { g3 with edges := AL.insert g3.edges (v, u) weight })))

/-- One public mutating call. -/
inductive Op (V W : Type) where
  | addVertex (x : V)
  | removeVertex (x : V)
  | addEdge (u v : V)
  | removeEdge (u v : V)
  | setEdgeWeight (u v : V) (w : W)
  | removeIsolated

/-- Apply one call, keeping only the resulting graph; `none` is a panic. -/
def applyOp (g : SimpleGraph V W) : Op V W → Option (SimpleGraph V W)
  | Op.addVertex x => some (add_vertex g x).2
  | Op.removeVertex x => some (remove_vertex g x).2
  | Op.addEdge u v => (add_edge g u v).map Prod.snd
  | Op.removeEdge u v => (remove_edge g u v).map Prod.snd
  | Op.setEdgeWeight u v w => (set_edge_weight g u v w).map Prod.snd
  | Op.removeIsolated => some (remove_isolated_vertices g).2

/-- Run a sequence of public calls. -/
def run : List (Op V W) → SimpleGraph V W → Option (SimpleGraph V W)
  | [], g => some g
  | op :: ops, g => (applyOp g op).bind (run ops)

/-- A state an owner of the library can actually reach. -/
def Reachable (g : SimpleGraph V W) : Prop :=
  ∃ (d : Bool) (ops : List (Op V W)), run ops (new d) = some g

/-- "No self-loops": no vertex is a member of its own neighbor set. -/
def selfLoopFree (g : SimpleGraph V W) : Prop :=
  ∀ p ∈ g.vertices, p.1 ∉ p.2

/-- Well-formedness of the weight map: every key `(a, b)` of `edges` has
both `a` and `b` present in the vertex map. -/
def WFedges (g : SimpleGraph V W) : Prop :=
  ∀ a b : V, contains_edge g a b = true →
    contains_vertex g a = true ∧ contains_vertex g b = true

/-- Symmetry of `contains_edge`. -/
def EdgeSym (g : SimpleGraph V W) : Prop :=
  ∀ u v : V, contains_edge g u v = contains_edge g v u

/-- Calls other than `remove_edge`. -/
def notRemoveEdge : Op V W → Bool
  | Op.removeEdge _ _ => false
  | _ => true

/-- Calls whose two endpoints (if any) are distinct. -/
def distinctEndpoints : Op V W → Bool
  | Op.addEdge u v => decide (u ≠ v)
  | Op.setEdgeWeight u v _ => decide (u ≠ v)
  | _ => true

end Ops

/-- Example graph: undirected, vertices `1` and `2`, weight `3` recorded in
both directions. -/
def exGraphC5 : SimpleGraph Nat Nat :=
  ⟨[(1, {2}), (2, {1})], [((1, 2), 3), ((2, 1), 3)], false⟩

/-- Example graph: undirected, vertices `1` and `2`, no edges, `Nat`
weights. -/
def exGraphC7 : SimpleGraph Nat Nat :=
  ⟨[(1, ∅), (2, ∅)], [], false⟩

/-- Example graph: undirected, isolated vertices `1` and `2`, no edges. -/
def exGraphC8 : SimpleGraph Nat Unit :=
  ⟨[(1, ∅), (2, ∅)], [], false⟩

/-- Example graph: directed, vertices 1,2,3, single edge `1 → 2` in the
adjacency lists. -/
def exGraphC9 : SimpleGraph Nat Unit :=
  ⟨[(1, {2}), (2, ∅), (3, ∅)], [], true⟩

/-- Example graph: undirected, vertices `1` and `2`, weight `7` recorded in
both directions (reached by `add_vertex 1; add_vertex 2;
set_edge_weight 1 2 7`). -/
def exGraphC6 : SimpleGraph Nat Nat :=
  ⟨[(1, {2}), (2, {1})], [((1, 2), 7), ((2, 1), 7)], false⟩

/-- Example graph: the result of `add_vertex 0; add_vertex 1;
set_edge_weight 0 1 5` on an empty undirected graph. -/
def exGraphC1 : SimpleGraph Nat Nat :=
  ⟨[(0, {1}), (1, {0})], [((0, 1), 5), ((1, 0), 5)], false⟩

/-- Example graph: the result of `add_vertex 1; add_vertex 2;
add_edge 1 2` on an empty undirected graph. -/
def exGraphC10 : SimpleGraph Nat Unit :=
  ⟨[(1, {2}), (2, {1})], [], false⟩

namespace AL

variable {K A : Type} [DecidableEq K]

@[simp] theorem lookup_nil (k : K) : lookup ([] : List (K × A)) k = none := rfl

@[simp] theorem lookup_insert_self (l : List (K × A)) (k : K) (a : A) :
    lookup (insert l k a) k = some a := by
  induction l with
  | nil => simp [insert, lookup]
  | cons p ps ih =>
    by_cases h : p.1 = k
    · simp [insert, h, lookup]
    · simp [insert, h, lookup, ih]

theorem lookup_insert_ne {k k' : K} (l : List (K × A)) (a : A) (h : k' ≠ k) :
    lookup (insert l k a) k' = lookup l k' := by
  have hk : ¬(k = k') := fun hk => h hk.symm
  induction l with
  | nil => simp [insert, lookup, hk]
  | cons p ps ih =>
    by_cases hp : p.1 = k
    · have hpk : ¬(p.1 = k') := by rw [hp]; exact hk
      simp [insert, hp, lookup, hk, hpk]
    · simp [insert, hp, lookup, ih]

/-- `retain` with a predicate that only inspects the key. -/
theorem lookup_filter_key (q : K → Bool) (l : List (K × A)) (k : K) :
    lookup (l.filter (fun p => q p.1)) k = if q k then lookup l k else none := by
  induction l with
  | nil => simp [lookup]
  | cons p ps ih =>
    by_cases hq : q p.1
    · by_cases hk : p.1 = k
      · subst hk; simp [lookup, hq]
      · simpa [lookup, hq, hk] using ih
    · by_cases hk : p.1 = k
      · subst hk
        simp only [List.filter_cons, hq]
        simpa [hq] using ih
      · simpa [lookup, hq, hk] using ih

@[simp] theorem lookup_erase_self (l : List (K × A)) (k : K) :
    lookup (erase l k) k = none := by
  have := lookup_filter_key (fun x => decide (x ≠ k)) l k
  simpa [erase] using this

theorem lookup_erase_ne {k k' : K} (l : List (K × A)) (h : k' ≠ k) :
    lookup (erase l k) k' = lookup l k' := by
  have := lookup_filter_key (fun x => decide (x ≠ k)) l k'
  simpa [erase, h] using this

theorem lookup_mapVals (f : A → A) (l : List (K × A)) (k : K) :
    lookup (mapVals f l) k = (lookup l k).map f := by
  induction l with
  | nil => rfl
  | cons p ps ih =>
    by_cases h : p.1 = k
    · simp [mapVals, lookup, h]
    · simpa [mapVals, lookup, h] using ih

theorem lookup_mem {l : List (K × A)} {k : K} {a : A}
    (h : lookup l k = some a) : (k, a) ∈ l := by
  induction l with
  | nil => simp [lookup] at h
  | cons p ps ih =>
    by_cases hp : p.1 = k
    · obtain ⟨p1, p2⟩ := p
      simp only at hp
      subst hp
      simp [lookup] at h
      subst h
      exact List.mem_cons_self _ _
    · simp [lookup, hp] at h
      exact List.mem_cons_of_mem _ (ih h)

theorem mem_insert {l : List (K × A)} {k : K} {a : A} {p : K × A}
    (h : p ∈ insert l k a) : p = (k, a) ∨ p ∈ l := by
  induction l with
  | nil => simpa [insert] using h
  | cons q qs ih =>
    by_cases hq : q.1 = k
    · simp only [insert, hq, if_true] at h
      rcases List.mem_cons.mp h with h | h
      · exact Or.inl h
      · exact Or.inr (List.mem_cons_of_mem _ h)
    · simp only [insert, hq, if_false] at h
      rcases List.mem_cons.mp h with h | h
      · exact Or.inr (h ▸ List.mem_cons_self _ _)
      · rcases ih h with h | h
        · exact Or.inl h
        · exact Or.inr (List.mem_cons_of_mem _ h)

theorem mem_mapVals {f : A → A} {l : List (K × A)} {p : K × A}
    (h : p ∈ mapVals f l) : ∃ q ∈ l, p = (q.1, f q.2) := by
  rcases List.mem_map.mp h with ⟨q, hq, hpq⟩
  exact ⟨q, hq, hpq.symm⟩

theorem mem_erase {l : List (K × A)} {k : K} {p : K × A}
    (h : p ∈ erase l k) : p ∈ l :=
  List.mem_of_mem_filter h

theorem contains_insert (l : List (K × A)) (k k' : K) (a : A) :
    contains (insert l k a) k' = true ↔ k' = k ∨ contains l k' = true := by
  by_cases h : k' = k
  · subst h; simp [contains]
  · simp [contains, lookup_insert_ne l a h, h]

theorem contains_of_lookup_isSome {l : List (K × A)} {k : K}
    (h : (lookup l k).isSome = true) : contains l k = true := h

theorem isSome_of_contains {l : List (K × A)} {k : K}
    (h : contains l k = true) : (lookup l k).isSome = true := h

theorem lookup_isSome_of_mem {l : List (K × A)} {k : K} {a : A}
    (h : (k, a) ∈ l) : (lookup l k).isSome = true := by
  induction l with
  | nil => simp at h
  | cons p ps ih =>
    rcases List.mem_cons.mp h with h | h
    · simp [lookup, ← h]
    · by_cases hp : p.1 = k
      · simp [lookup, hp]
      · simpa [lookup, hp] using ih h

/-- With no duplicate keys, lookup recovers every entry. -/
theorem lookup_of_mem_nodup {l : List (K × A)} {k : K} {a : A}
    (hnd : (l.map Prod.fst).Nodup) (h : (k, a) ∈ l) : lookup l k = some a := by
  induction l with
  | nil => simp at h
  | cons p ps ih =>
    rw [List.map_cons, List.nodup_cons] at hnd
    rcases List.mem_cons.mp h with h | h
    · rw [← h]
      simp [lookup]
    · have hk : k ∈ ps.map Prod.fst := List.mem_map.mpr ⟨(k, a), h, rfl⟩
      have hp : p.1 ≠ k := fun hpk => hnd.1 (hpk ▸ hk)
      simpa [lookup, hp] using ih hnd.2 h

/-- Summing a key-indexed quantity over the key list equals summing it over
the entries, provided the keys are distinct. -/
theorem sum_over_keys {B : Type} [AddCommMonoid B] (f : A → B) (l : List (K × A))
    (hnd : (l.map Prod.fst).Nodup) :
    ((l.map Prod.fst).map (fun k => ((lookup l k).map f).getD 0)).sum
      = (l.map (fun p => f p.2)).sum := by
  induction l with
  | nil => rfl
  | cons p ps ih =>
    rw [List.map_cons, List.nodup_cons] at hnd
    have htail : (ps.map Prod.fst).map (fun k => ((lookup (p :: ps) k).map f).getD 0)
        = (ps.map Prod.fst).map (fun k => ((lookup ps k).map f).getD 0) := by
      apply List.map_congr_left
      intro k hk
      have hp : p.1 ≠ k := fun hpk => hnd.1 (hpk ▸ hk)
      simp [lookup, hp]
    have hhead : ((lookup (p :: ps) p.1).map f).getD 0 = f p.2 := by simp [lookup]
    simp only [List.map_cons, List.sum_cons, htail, hhead, ih hnd.2]

theorem contains_insert_mono {l : List (K × A)} {k : K} (k' : K) (a : A)
    (h : contains l k = true) : contains (insert l k' a) k = true :=
  (contains_insert l k' k a).mpr (Or.inr h)

theorem contains_erase_mono {l : List (K × A)} {k k' : K}
    (h : contains (erase l k') k = true) : contains l k = true := by
  by_cases hk : k = k'
  · subst hk
    have : lookup (erase l k) k = none := lookup_erase_self l k
    rw [contains, this] at h
    exact absurd h (by simp)
  · rwa [contains, lookup_erase_ne l hk] at h

end AL

section RunInv

variable {V W : Type} [DecidableEq V]

/-- Invariant preservation along a run, restricted to calls satisfying `Q`. -/
theorem run_inv (P : SimpleGraph V W → Prop) (Q : Op V W → Bool)
    (hstep : ∀ g op g', Q op = true → P g → applyOp g op = some g' → P g') :
    ∀ (ops : List (Op V W)) (g g' : SimpleGraph V W),
      (∀ op ∈ ops, Q op = true) → P g → run ops g = some g' → P g' := by
  intro ops
  induction ops with
  | nil =>
    intro g g' _ hP hrun
    simp [run] at hrun
    exact hrun ▸ hP
  | cons op ops ih =>
    intro g g' hQ hP hrun
    simp only [run] at hrun
    rcases Option.bind_eq_some.mp hrun with ⟨g1, hg1, hrest⟩
    exact ih g1 g' (fun o ho => hQ o (List.mem_cons_of_mem _ ho))
      (hstep g op g1 (hQ op (List.mem_cons_self _ _)) hP hg1) hrest

end RunInv

section ClaimEvals

open Op

/-- C2: in an undirected unweighted graph, after `add_vertex("a")`,
`add_vertex("b")` and a successful `add_edge("a","b")`, the code returns
`false` for `contains_edge("b","a")` (the claim says `true`), while
`edge_count()` is `1` as claimed: `contains_edge` consults the weight map,
which `add_edge` never writes. -/
theorem C2_scenario_eval :
    (run [addVertex "a", addVertex "b", addEdge "a" "b"]
        (new false : SimpleGraph String Unit)).map
      (fun g => (contains_edge g "b" "a", edge_count g)) = some (false, 1) := by
  rfl

/-- C3: after `add_vertex(1)`, `add_vertex(2)` and a successful
`add_edge(1,2)`, a second `add_edge(1,2)` returns `Ok(())` instead of the
claimed `EdgeAlreadyExists`: the duplicate check consults the weight map,
which `add_edge` never writes. -/
theorem C3_second_add_edge_eval :
    ((run [addVertex 1, addVertex 2, addEdge 1 2]
        (new false : SimpleGraph Nat Unit)).bind
      (fun g => add_edge g 1 2)).map Prod.fst = some (Except.ok ()) := by
  rfl

/-- C4: after `add_vertex(1)`, `add_vertex(2)` and a successful
`add_edge(1,2)`, `remove_edge(1,2)` fails with `EdgeNotFound` instead of
succeeding as claimed, because the existence test consults the weight map,
which `add_edge` never writes. -/
theorem C4_remove_after_add_eval :
    ((run [addVertex 1, addVertex 2, addEdge 1 2]
        (new false : SimpleGraph Nat Unit)).bind
      (fun g => remove_edge g 1 2)).map Prod.fst
      = some (Except.error GraphError.EdgeNotFound) := by
  rfl

/-- C1 counterexample: on an undirected graph with vertices 0 and 1, after
`set_edge_weight(0,1,5)` followed by `remove_edge(0,1)`,
`contains_edge(0,1)` is `false` but `contains_edge(1,0)` is `true`:
`remove_edge` erases only the `(0,1)` weight entry, not the mirrored
`(1,0)` entry. -/
theorem C1_counterexample :
    (run [addVertex 0, addVertex 1, setEdgeWeight 0 1 5, removeEdge 0 1]
        (new false : SimpleGraph Nat Nat)).map
      (fun g => (contains_edge g 0 1, contains_edge g 1 0))
      = some (false, true) := by
  rfl

/-- C10 counterexample: the reachable graph obtained by `add_vertex(1)`
followed by `add_edge(1,1)` on an undirected graph has `1` in its own
neighbor set, so the public API does create self-loops. -/
theorem C10_counterexample :
    ¬(∀ g : SimpleGraph Nat Unit, Reachable g → selfLoopFree g) := by
  intro h
  have hfree := h ⟨[(1, ({1} : Finset Nat))], [], false⟩
    ⟨false, [addVertex 1, addEdge 1 1], rfl⟩
  exact hfree (1, {1}) (List.mem_cons_self _ _) (Finset.mem_singleton_self 1)

end ClaimEvals

section Claim5

variable {V W : Type} [DecidableEq V]

/-- C5: `remove_vertex(x)` fails with `VertexNotFound` when `x` is absent,
leaving the graph unchanged; when `x` is present it succeeds, and in the
resulting graph `x` is no longer a vertex, no remaining vertex lists `x` as
a neighbor, and `edge_weight` is `None` for every ordered pair involving
`x`. -/
theorem C5_remove_vertex_cascade (g : SimpleGraph V W) (x : V) :
    (contains_vertex g x = false →
      remove_vertex g x = (Except.error GraphError.VertexNotFound, g)) ∧
    (contains_vertex g x = true →
      (remove_vertex g x).1 = Except.ok () ∧
      contains_vertex (remove_vertex g x).2 x = false ∧
      (∀ y s, neighbors (remove_vertex g x).2 y = some s → x ∉ s) ∧
      (∀ a b, a = x ∨ b = x → edge_weight (remove_vertex g x).2 a b = none)) := by
  constructor
  · intro h
    simp [remove_vertex, h]
  · intro h
    have h' : (AL.lookup g.vertices x).isSome = true := h
    have hg : remove_vertex g x = (Except.ok (),
        { vertices := AL.mapVals (fun nbrs => nbrs.erase x) (AL.erase g.vertices x),
          edges := g.edges.filter (fun p => decide (p.1.1 ≠ x) && decide (p.1.2 ≠ x)),
          directed := g.directed }) := by
      simp [remove_vertex, contains_vertex, AL.contains, h']
    refine ⟨by rw [hg], ?_, ?_, ?_⟩
    · rw [hg]
      show (AL.lookup (AL.mapVals (fun nbrs => nbrs.erase x)
        (AL.erase g.vertices x)) x).isSome = false
      rw [AL.lookup_mapVals, AL.lookup_erase_self]
      rfl
    · intro y s hs
      rw [hg] at hs
      simp only [neighbors] at hs
      rw [AL.lookup_mapVals] at hs
      rcases Option.map_eq_some'.mp hs with ⟨t, _, hts⟩
      rw [← hts]
      exact Finset.not_mem_erase x t
    · intro a b hab
      rw [hg]
      simp only [edge_weight]
      have hfilter := AL.lookup_filter_key
        (fun k : V × V => decide (k.1 ≠ x) && decide (k.2 ≠ x)) g.edges (a, b)
      rcases hab with hab | hab <;> subst hab <;> simpa using hfilter

end Claim5

/-- C5 witness: on a concrete graph containing vertex `1`, removal
succeeds and the cascade holds. -/
theorem C5_witness :
    contains_vertex exGraphC5 1 = true ∧
    contains_vertex (remove_vertex exGraphC5 1).2 1 = false ∧
    edge_weight (remove_vertex exGraphC5 1).2 1 2 = none ∧
    edge_weight (remove_vertex exGraphC5 1).2 2 1 = none := by
  have h := (C5_remove_vertex_cascade exGraphC5 1).2 (by decide)
  exact ⟨by decide, h.2.1, h.2.2.2 1 2 (Or.inl rfl), h.2.2.2 2 1 (Or.inr rfl)⟩

section Claim7

variable {V W : Type} [DecidableEq V]

/-- What a successful `set_edge_weight` produces, for both directedness
modes. -/
theorem set_edge_weight_ok (g : SimpleGraph V W) (u v : V) (w : W)
    (hu : contains_vertex g u = true) (hv : contains_vertex g v = true) :
    ∃ g', set_edge_weight g u v w = some (Except.ok (), g') ∧
      (∃ s, neighbors g' u = some s ∧ v ∈ s) ∧
      (g.directed = false → ∃ s, neighbors g' v = some s ∧ u ∈ s) ∧
      edge_weight g' u v = some w ∧
      (g.directed = false → edge_weight g' v u = some w) ∧
      contains_vertex g' u = true ∧ contains_vertex g' v = true ∧
      g'.directed = g.directed := by
  obtain ⟨s, hs⟩ := Option.isSome_iff_exists.mp hu
  have hcond : (!contains_vertex g u || !contains_vertex g v) = false := by
    simp [hu, hv]
  cases hd : g.directed with
  | true =>
    refine ⟨⟨AL.insert g.vertices u (Insert.insert v s),
        AL.insert g.edges (u, v) w, g.directed⟩, ?_, ?_, ?_, ?_, ?_, ?_, ?_, hd⟩
    · simp [set_edge_weight, hcond, insertNbr, hs, hd, hu, hv]
    · exact ⟨Insert.insert v s, by simp [neighbors], Finset.mem_insert_self v s⟩
    · intro hfalse
      exact absurd hfalse (by simp)
    · simp [edge_weight]
    · intro hfalse
      exact absurd hfalse (by simp)
    · show (AL.lookup (AL.insert g.vertices u (Insert.insert v s)) u).isSome = true
      simp
    · show (AL.lookup (AL.insert g.vertices u (Insert.insert v s)) v).isSome = true
      by_cases hvu : v = u
      · subst hvu; simp
      · rw [AL.lookup_insert_ne _ _ hvu]
        exact hv
  | false =>
    by_cases hvu : v = u
    · subst hvu
      refine ⟨⟨AL.insert (AL.insert g.vertices v (Insert.insert v s)) v
            (Insert.insert v (Insert.insert v s)),
          AL.insert (AL.insert g.edges (v, v) w) (v, v) w,
          g.directed⟩, ?_, ?_, ?_, ?_, ?_, ?_, ?_, hd⟩
      · simp [set_edge_weight, hcond, insertNbr, hs, hd, hu, hv]
      · exact ⟨Insert.insert v (Insert.insert v s), by simp [neighbors],
          Finset.mem_insert_self _ _⟩
      · exact fun _ => ⟨Insert.insert v (Insert.insert v s), by simp [neighbors],
          Finset.mem_insert_self _ _⟩
      · simp [edge_weight]
      · intro _
        simp [edge_weight]
      · show (AL.lookup (AL.insert (AL.insert g.vertices v (Insert.insert v s)) v
          (Insert.insert v (Insert.insert v s))) v).isSome = true
        simp
      · show (AL.lookup (AL.insert (AL.insert g.vertices v (Insert.insert v s)) v
          (Insert.insert v (Insert.insert v s))) v).isSome = true
        simp
    · obtain ⟨t, ht⟩ := Option.isSome_iff_exists.mp hv
      have ht1 : AL.lookup (AL.insert g.vertices u (Insert.insert v s)) v = some t := by
        rw [AL.lookup_insert_ne _ _ hvu]
        exact ht
      have huv : u ≠ v := fun h => hvu h.symm
      have hpair : (u, v) ≠ (v, u) := fun h => huv (congrArg Prod.fst h)
      refine ⟨⟨AL.insert (AL.insert g.vertices u (Insert.insert v s)) v
            (Insert.insert u t),
          AL.insert (AL.insert g.edges (u, v) w) (v, u) w,
          g.directed⟩, ?_, ?_, ?_, ?_, ?_, ?_, ?_, hd⟩
      · simp [set_edge_weight, hcond, insertNbr, hs, hd, ht1, hu, hv]
      · refine ⟨Insert.insert v s, ?_, Finset.mem_insert_self v s⟩
        show AL.lookup (AL.insert (AL.insert g.vertices u (Insert.insert v s)) v
          (Insert.insert u t)) u = some (Insert.insert v s)
        rw [AL.lookup_insert_ne _ _ huv]
        simp
      · exact fun _ => ⟨Insert.insert u t, by simp [neighbors],
          Finset.mem_insert_self u t⟩
      · show AL.lookup (AL.insert (AL.insert g.edges (u, v) w) (v, u) w) (u, v) = some w
        rw [AL.lookup_insert_ne _ _ hpair]
        simp
      · intro _
        simp [edge_weight]
      · show (AL.lookup (AL.insert (AL.insert g.vertices u (Insert.insert v s)) v
          (Insert.insert u t)) u).isSome = true
        rw [AL.lookup_insert_ne _ _ huv]
        simp
      · show (AL.lookup (AL.insert (AL.insert g.vertices u (Insert.insert v s)) v
          (Insert.insert u t)) v).isSome = true
        simp

/-- C7: `set_edge_weight(u,v,w)` fails with `VertexNotFound` if either
endpoint is absent; on success it ensures `v` is in `u`'s neighbor set
(mirroring into `v`'s set when undirected), records `w` for `(u,v)` (and
for `(v,u)` when undirected), and a second call with another weight
overwrites the stored weight. -/
theorem C7_set_edge_weight_upsert (g : SimpleGraph V W) (u v : V) (w w2 : W) :
    ((contains_vertex g u = false ∨ contains_vertex g v = false) →
      set_edge_weight g u v w = some (Except.error GraphError.VertexNotFound, g)) ∧
    (contains_vertex g u = true → contains_vertex g v = true →
      ∃ g', set_edge_weight g u v w = some (Except.ok (), g') ∧
        (∃ s, neighbors g' u = some s ∧ v ∈ s) ∧
        (g.directed = false → ∃ s, neighbors g' v = some s ∧ u ∈ s) ∧
        edge_weight g' u v = some w ∧
        (g.directed = false → edge_weight g' v u = some w) ∧
        (∃ g'', set_edge_weight g' u v w2 = some (Except.ok (), g'') ∧
          edge_weight g'' u v = some w2 ∧
          (g.directed = false → edge_weight g'' v u = some w2))) := by
  constructor
  · intro h
    have hcond : (!contains_vertex g u || !contains_vertex g v) = true := by
      rcases h with h | h <;> simp [h]
    simp [set_edge_weight, hcond]
  · intro hu hv
    obtain ⟨g', heq, hnb, hnbm, hw, hwm, hu', hv', hdir⟩ :=
      set_edge_weight_ok g u v w hu hv
    obtain ⟨g'', heq2, _, _, hw2, hwm2, _, _, _⟩ :=
      set_edge_weight_ok g' u v w2 hu' hv'
    exact ⟨g', heq, hnb, hnbm, hw, hwm, g'', heq2, hw2,
      fun h => hwm2 (hdir.trans h)⟩

end Claim7

/-- C7 witness (Scenario C): on a weighted undirected graph with vertices
`1` and `2`, `set_edge_weight(1,2,10)` succeeds and `edge_weight(1,2)` and
`edge_weight(2,1)` are both `Some(10)`. -/
theorem C7_witness :
    (set_edge_weight exGraphC7 1 2 10).map
      (fun r => (r.1, edge_weight r.2 1 2, edge_weight r.2 2 1))
      = some (Except.ok (), some 10, some 10) := by
  obtain ⟨g', heq, _, _, hw, hwm, _⟩ :=
    (C7_set_edge_weight_upsert exGraphC7 1 2 10 10).2 (by decide) (by decide)
  rw [heq]
  simp only [Option.map_some']
  rw [hw, hwm rfl]

section Claim8

variable {V W : Type} [DecidableEq V]

/-- After `remove_vertex(x)`, `x` is never a vertex (whether or not the
call succeeded). -/
theorem contains_remove_vertex_self (g : SimpleGraph V W) (x : V) :
    contains_vertex (remove_vertex g x).2 x = false := by
  by_cases h : contains_vertex g x = true
  · have h' : (AL.lookup g.vertices x).isSome = true := h
    show (AL.lookup (remove_vertex g x).2.vertices x).isSome = false
    simp only [remove_vertex, contains_vertex, AL.contains, h', Bool.not_true]
    simp only [Bool.false_eq_true, if_false]
    rw [AL.lookup_mapVals, AL.lookup_erase_self]
    rfl
  · have h0 : contains_vertex g x = false := by
      cases hc : contains_vertex g x
      · rfl
      · exact absurd hc h
    have h' : (AL.lookup g.vertices x).isSome = false := h0
    show (AL.lookup (remove_vertex g x).2.vertices x).isSome = false
    simp only [remove_vertex, contains_vertex, AL.contains, h', Bool.not_false]
    simp only [if_true]
    exact h'

/-- `remove_vertex(x)` leaves the presence of every other vertex alone. -/
theorem contains_remove_vertex_ne (g : SimpleGraph V W) {x y : V} (h : y ≠ x) :
    contains_vertex (remove_vertex g x).2 y = contains_vertex g y := by
  by_cases hc : contains_vertex g x = true
  · have h' : (AL.lookup g.vertices x).isSome = true := hc
    show (AL.lookup (remove_vertex g x).2.vertices y).isSome
      = (AL.lookup g.vertices y).isSome
    simp only [remove_vertex, contains_vertex, AL.contains, h', Bool.not_true]
    simp only [Bool.false_eq_true, if_false]
    rw [AL.lookup_mapVals, AL.lookup_erase_ne _ h]
    cases AL.lookup g.vertices y <;> rfl
  · have h0 : (AL.lookup g.vertices x).isSome = false := by
      cases hcc : (AL.lookup g.vertices x).isSome
      · rfl
      · exact absurd hcc hc
    show (AL.lookup (remove_vertex g x).2.vertices y).isSome
      = (AL.lookup g.vertices y).isSome
    simp only [remove_vertex, contains_vertex, AL.contains, h0, Bool.not_false, if_true]

/-- `remove_vertex` succeeds exactly on present vertices. -/
theorem remove_vertex_ok (g : SimpleGraph V W) {x : V}
    (h : contains_vertex g x = true) : (remove_vertex g x).1 = Except.ok () := by
  have h' : (AL.lookup g.vertices x).isSome = true := h
  simp [remove_vertex, contains_vertex, AL.contains, h']

/-- The removal loop never resurrects a vertex. -/
theorem loop_contains_false (L : List V) (g : SimpleGraph V W) (y : V)
    (h : contains_vertex g y = false) :
    contains_vertex (remove_vertices_loop L g).2 y = false := by
  induction L generalizing g with
  | nil => exact h
  | cons x xs ih =>
    simp only [remove_vertices_loop]
    cases hr : remove_vertex g x with
    | mk res g' =>
      have hg' : contains_vertex g' y = false := by
        by_cases hyx : y = x
        · subst hyx
          have := contains_remove_vertex_self g y
          rw [hr] at this
          exact this
        · have := contains_remove_vertex_ne g hyx
          rw [hr] at this
          exact this.trans h
      cases res with
      | ok _ => exact ih g' hg'
      | error e => exact hg'

/-- If every listed vertex is present and the list has no duplicates, the
removal loop succeeds and removes them all. -/
theorem loop_spec (L : List V) (g : SimpleGraph V W)
    (hall : ∀ x ∈ L, contains_vertex g x = true) (hnd : L.Nodup) :
    (remove_vertices_loop L g).1 = Except.ok () ∧
    ∀ x ∈ L, contains_vertex (remove_vertices_loop L g).2 x = false := by
  induction L generalizing g with
  | nil => exact ⟨rfl, by simp⟩
  | cons x xs ih =>
    rw [List.nodup_cons] at hnd
    have hx := hall x (List.mem_cons_self _ _)
    have hok := remove_vertex_ok g hx
    simp only [remove_vertices_loop]
    cases hr : remove_vertex g x with
    | mk res g' =>
      have hres : res = Except.ok () := by rw [hr] at hok; exact hok
      subst hres
      have hxs : ∀ y ∈ xs, contains_vertex g' y = true := by
        intro y hy
        have hyx : y ≠ x := fun hxy => hnd.1 (hxy ▸ hy)
        have := contains_remove_vertex_ne g hyx
        rw [hr] at this
        exact this.trans (hall y (List.mem_cons_of_mem _ hy))
      refine ⟨(ih g' hxs hnd.2).1, ?_⟩
      intro y hy
      rcases List.mem_cons.mp hy with hy | hy
      · subst hy
        have hgone : contains_vertex g' y = false := by
          have := contains_remove_vertex_self g y
          rw [hr] at this
          exact this
        exact loop_contains_false xs g' y hgone
      · exact (ih g' hxs hnd.2).2 y hy

/-- C8: `remove_isolated_vertices()` fails with `VertexNotFound` exactly
when no vertex has an empty neighbor set (leaving the graph unchanged),
and otherwise succeeds, after which no vertex that was isolated at call
time remains in the graph. -/
theorem C8_remove_isolated (g : SimpleGraph V W)
    (hnd : (g.vertices.map Prod.fst).Nodup) :
    (isolated_vertices g = [] →
      remove_isolated_vertices g = (Except.error GraphError.VertexNotFound, g)) ∧
    (isolated_vertices g ≠ [] →
      (remove_isolated_vertices g).1 = Except.ok () ∧
      ∀ x ∈ isolated_vertices g,
        contains_vertex (remove_isolated_vertices g).2 x = false) := by
  constructor
  · intro h
    simp [remove_isolated_vertices, h]
  · intro h
    have hne : (isolated_vertices g).isEmpty = false := by
      cases hL : isolated_vertices g
      · exact absurd hL h
      · rfl
    have hall : ∀ x ∈ isolated_vertices g, contains_vertex g x = true := by
      intro x hx
      rcases List.mem_map.mp hx with ⟨p, hp, hpx⟩
      have hmem : p ∈ g.vertices := List.mem_of_mem_filter hp
      obtain ⟨p1, p2⟩ := p
      cases hpx
      exact AL.lookup_isSome_of_mem hmem
    have hLnd : (isolated_vertices g).Nodup := by
      have hsub : (isolated_vertices g).Sublist (g.vertices.map Prod.fst) :=
        List.Sublist.map Prod.fst (List.filter_sublist g.vertices)
      exact hnd.sublist hsub
    have hspec := loop_spec (isolated_vertices g) g hall hLnd
    constructor
    · simp only [remove_isolated_vertices, hne, Bool.false_eq_true, if_false]
      exact hspec.1
    · intro x hx
      simp only [remove_isolated_vertices, hne, Bool.false_eq_true, if_false]
      exact hspec.2 x hx

end Claim8

/-- C8 witness (Scenario E): on a graph with isolated vertices `1` and `2`
the call succeeds and both vertices are gone; a second call on the
resulting empty graph fails with `VertexNotFound`. -/
theorem C8_witness :
    (remove_isolated_vertices exGraphC8).1 = Except.ok () ∧
    contains_vertex (remove_isolated_vertices exGraphC8).2 1 = false ∧
    contains_vertex (remove_isolated_vertices exGraphC8).2 2 = false ∧
    (remove_isolated_vertices (remove_isolated_vertices exGraphC8).2).1
      = Except.error GraphError.VertexNotFound := by
  have h1 := (C8_remove_isolated exGraphC8 (by decide)).2 (by decide)
  have h2 := (C8_remove_isolated (remove_isolated_vertices exGraphC8).2
    (by decide)).1 (by decide)
  refine ⟨h1.1, h1.2 1 (by decide), h1.2 2 (by decide), ?_⟩
  rw [h2]

section Claim9

variable {V W : Type} [DecidableEq V]

/-- The per-vertex neighbor count used by `edge_count`. -/
theorem neighbor_count_eq (g : SimpleGraph V W) (k : V) :
    (match neighbors g k with
      | some n => n.card
      | none => 0) = ((AL.lookup g.vertices k).map Finset.card).getD 0 := by
  cases h : AL.lookup g.vertices k <;> simp [neighbors, h]

/-- C9: `order()` is the count of `vertices()`; `edge_count()` is the sum
over all vertices of their neighbor counts for directed graphs and half
that sum for undirected graphs; and on a directed graph with vertices
1,2,3 and edge (1,2), `degree(1) == Some(1)`, `degree(2) == Some(0)` and
`edge_count() == 1`. -/
theorem C9_counts (g : SimpleGraph V W)
    (hnd : (g.vertices.map Prod.fst).Nodup) :
    order g = (verticesList g).length ∧
    (g.directed = true →
      edge_count g = (g.vertices.map (fun p => p.2.card)).sum) ∧
    (g.directed = false →
      edge_count g = (g.vertices.map (fun p => p.2.card)).sum / 2) ∧
    ((run [Op.addVertex 1, Op.addVertex 2, Op.addVertex 3, Op.addEdge 1 2]
        (new true : SimpleGraph Nat Unit)).map
      (fun h => (degree h 1, degree h 2, edge_count h))
      = some (some 1, some 0, 1)) := by
  have hmap : (verticesList g).map (fun v =>
        match neighbors g v with
        | some n => n.card
        | none => 0)
      = (g.vertices.map Prod.fst).map
        (fun k => ((AL.lookup g.vertices k).map Finset.card).getD 0) :=
    List.map_congr_left (fun k _ => neighbor_count_eq g k)
  refine ⟨rfl, ?_, ?_, rfl⟩
  · intro hd
    simp only [edge_count, hd, if_true]
    rw [hmap, AL.sum_over_keys Finset.card g.vertices hnd]
  · intro hd
    simp only [edge_count, hd, Bool.false_eq_true, if_false]
    rw [hmap, AL.sum_over_keys Finset.card g.vertices hnd]

end Claim9

/-- C9 witness: the count identities hold on a concrete directed graph. -/
theorem C9_witness :
    order exGraphC9 = (verticesList exGraphC9).length ∧
    edge_count exGraphC9 = (exGraphC9.vertices.map (fun p => p.2.card)).sum := by
  have h := C9_counts exGraphC9 (by decide)
  exact ⟨h.1, h.2.1 rfl⟩

section Claim6

variable {V W : Type} [DecidableEq V]

/-- What a successful `insertNbr` does to the graph record. -/
theorem insertNbr_cases {g g1 : SimpleGraph V W} {a b : V}
    (h : insertNbr g a b = some g1) :
    g1.edges = g.edges ∧ g1.directed = g.directed ∧
    (∀ y, contains_vertex g y = true → contains_vertex g1 y = true) := by
  rcases Option.map_eq_some'.mp h with ⟨s, _, hg⟩
  refine ⟨by rw [← hg], by rw [← hg], ?_⟩
  intro y hy
  rw [← hg]
  exact AL.contains_insert_mono a (Insert.insert b s) hy

/-- What a successful `eraseNbr` does to the graph record. -/
theorem eraseNbr_cases {g g1 : SimpleGraph V W} {a b : V}
    (h : eraseNbr g a b = some g1) :
    g1.edges = g.edges ∧ g1.directed = g.directed ∧
    (∀ y, contains_vertex g y = true → contains_vertex g1 y = true) := by
  rcases Option.map_eq_some'.mp h with ⟨s, _, hg⟩
  refine ⟨by rw [← hg], by rw [← hg], ?_⟩
  intro y hy
  rw [← hg]
  exact AL.contains_insert_mono a (s.erase b) hy

/-- `remove_vertex` preserves the weight-map key invariant. -/
theorem wf_remove_vertex (g : SimpleGraph V W) (x : V) (hWF : WFedges g) :
    WFedges (remove_vertex g x).2 := by
  by_cases hc : (AL.lookup g.vertices x).isSome = true
  · have hg : (remove_vertex g x).2
        = ⟨AL.mapVals (fun nbrs => nbrs.erase x) (AL.erase g.vertices x),
           g.edges.filter (fun p => decide (p.1.1 ≠ x) && decide (p.1.2 ≠ x)),
           g.directed⟩ := by
      simp [remove_vertex, contains_vertex, AL.contains, hc]
    rw [hg]
    intro a b hab
    have hfilter := AL.lookup_filter_key
      (fun k : V × V => decide (k.1 ≠ x) && decide (k.2 ≠ x)) g.edges (a, b)
    simp only [contains_edge, AL.contains] at hab
    rw [hfilter] at hab
    by_cases hq : (decide (a ≠ x) && decide (b ≠ x)) = true
    · have hax : a ≠ x := by
        have := Bool.and_elim_left hq
        simpa using this
      have hbx : b ≠ x := by
        have := Bool.and_elim_right hq
        simpa using this
      rw [if_pos hq] at hab
      have hv := hWF a b hab
      constructor
      · show (AL.lookup (AL.mapVals (fun nbrs => nbrs.erase x)
          (AL.erase g.vertices x)) a).isSome = true
        rw [AL.lookup_mapVals, AL.lookup_erase_ne _ hax]
        simpa [Option.isSome_map] using hv.1
      · show (AL.lookup (AL.mapVals (fun nbrs => nbrs.erase x)
          (AL.erase g.vertices x)) b).isSome = true
        rw [AL.lookup_mapVals, AL.lookup_erase_ne _ hbx]
        simpa [Option.isSome_map] using hv.2
    · rw [if_neg hq] at hab
      exact absurd hab (by simp)
  · have hg : (remove_vertex g x).2 = g := by
      have hc' : (AL.lookup g.vertices x).isSome = false := by
        cases hcc : (AL.lookup g.vertices x).isSome
        · rfl
        · exact absurd hcc hc
      simp [remove_vertex, contains_vertex, AL.contains, hc']
    rw [hg]
    exact hWF

/-- One public call preserves the weight-map key invariant. -/
theorem wf_step (g : SimpleGraph V W) (op : Op V W) (g' : SimpleGraph V W)
    (hWF : WFedges g) (h : applyOp g op = some g') : WFedges g' := by
  cases op with
  | addVertex x =>
    simp only [applyOp, Option.some_inj] at h
    subst h
    by_cases hc : contains_vertex g x = true
    · simpa [add_vertex, hc] using hWF
    · have hc' : contains_vertex g x = false := by
        cases hcc : contains_vertex g x
        · rfl
        · exact absurd hcc hc
      intro a b hab
      simp only [add_vertex, hc', Bool.false_eq_true, if_false] at hab ⊢
      have hv := hWF a b hab
      exact ⟨AL.contains_insert_mono x ∅ hv.1, AL.contains_insert_mono x ∅ hv.2⟩
  | removeVertex x =>
    simp only [applyOp, Option.some_inj] at h
    subst h
    exact wf_remove_vertex g x hWF
  | addEdge u v =>
    simp only [applyOp] at h
    rcases Option.map_eq_some'.mp h with ⟨r, hr, hg'⟩
    by_cases hcond : (!contains_vertex g u || !contains_vertex g v) = true
    · rw [add_edge, if_pos hcond] at hr
      cases hr
      cases hg'
      exact hWF
    · rw [add_edge, if_neg (by simpa using hcond)] at hr
      by_cases hce : contains_edge g u v = true
      · rw [if_pos hce] at hr
        cases hr
        cases hg'
        exact hWF
      · rw [if_neg hce] at hr
        rcases Option.bind_eq_some.mp hr with ⟨g1, hg1, hrest⟩
        obtain ⟨he1, _, hm1⟩ := insertNbr_cases hg1
        by_cases hd : g.directed = true
        · rw [if_pos hd] at hrest
          cases hrest
          cases hg'
          intro a b hab
          have hab' : contains_edge g a b = true := by
            simpa [contains_edge, AL.contains, he1] using hab
          have hv := hWF a b hab'
          exact ⟨hm1 a hv.1, hm1 b hv.2⟩
        · rw [if_neg hd] at hrest
          rcases Option.map_eq_some'.mp hrest with ⟨g2, hg2, hpair⟩
          have hg2' : g' = g2 := by
            rw [← hg']
            rw [← hpair]
          subst hg2'
          obtain ⟨he2, _, hm2⟩ := insertNbr_cases hg2
          intro a b hab
          have hab' : contains_edge g a b = true := by
            simpa [contains_edge, AL.contains, he2, he1] using hab
          have hv := hWF a b hab'
          exact ⟨hm2 a (hm1 a hv.1), hm2 b (hm1 b hv.2)⟩
  | removeEdge u v =>
    simp only [applyOp] at h
    rcases Option.map_eq_some'.mp h with ⟨r, hr, hg'⟩
    by_cases hce : contains_edge g u v = true
    · rw [remove_edge, if_neg (by simp [hce])] at hr
      rcases Option.bind_eq_some.mp hr with ⟨g2, hg2, hrest⟩
      obtain ⟨he2, _, hm2⟩ := eraseNbr_cases hg2
      have hedge1 : ∀ a b : V, contains_edge g2 a b = true →
          contains_edge g a b = true := by
        intro a b hab
        have : AL.contains (AL.erase g.edges (u, v)) (a, b) = true := by
          simpa [contains_edge, AL.contains, he2] using hab
        exact AL.contains_erase_mono this
      by_cases hd : g.directed = true
      · rw [if_pos hd] at hrest
        cases hrest
        cases hg'
        intro a b hab
        have hv := hWF a b (hedge1 a b hab)
        exact ⟨hm2 a hv.1, hm2 b hv.2⟩
      · rw [if_neg hd] at hrest
        rcases Option.map_eq_some'.mp hrest with ⟨g3, hg3, hpair⟩
        have hg3' : g' = g3 := by
          rw [← hg']
          rw [← hpair]
        subst hg3'
        obtain ⟨he3, _, hm3⟩ := eraseNbr_cases hg3
        intro a b hab
        have hab' : contains_edge g2 a b = true := by
          simpa [contains_edge, AL.contains, he3] using hab
        have hv := hWF a b (hedge1 a b hab')
        exact ⟨hm3 a (hm2 a hv.1), hm3 b (hm2 b hv.2)⟩
    · have hce' : contains_edge g u v = false := Bool.eq_false_iff.mpr hce
      rw [remove_edge, if_pos (by simp [hce'])] at hr
      cases hr
      cases hg'
      exact hWF
  | setEdgeWeight u v w =>
    simp only [applyOp] at h
    rcases Option.map_eq_some'.mp h with ⟨r, hr, hg'⟩
    by_cases hcond : (!contains_vertex g u || !contains_vertex g v) = true
    · rw [set_edge_weight, if_pos hcond] at hr
      cases hr
      cases hg'
      exact hWF
    · have hboth : contains_vertex g u = true ∧ contains_vertex g v = true := by
        have hc := Bool.eq_false_iff.mpr hcond
        simpa using hc
      obtain ⟨hu, hv⟩ := hboth
      rw [set_edge_weight, if_neg (by simpa using hcond)] at hr
      rcases Option.bind_eq_some.mp hr with ⟨g1, hg1, hrest⟩
      obtain ⟨he1, hd1, hm1⟩ := insertNbr_cases hg1
      by_cases hd : g.directed = true
      · rw [if_pos hd] at hrest
        simp only [Option.map_some', Option.some_inj] at hrest
        have hrest' : (Except.ok (), (⟨g1.vertices, AL.insert g1.edges (u, v) w,
            g1.directed⟩ : SimpleGraph V W)) = r := by
          rw [← hrest]
          simp [hd]
        have hgfin : g' = ⟨g1.vertices, AL.insert g1.edges (u, v) w,
            g1.directed⟩ := by
          rw [← hg', ← hrest']
        rw [hgfin]
        intro a b hab
        have hab' : AL.contains (AL.insert g1.edges (u, v) w) (a, b) = true := hab
        rcases (AL.contains_insert g1.edges (u, v) (a, b) w).mp hab' with hk | hold
        · have ha : a = u := congrArg Prod.fst hk
          have hb : b = v := congrArg Prod.snd hk
          subst ha
          subst hb
          exact ⟨hm1 a hu, hm1 b hv⟩
        · have hold' : contains_edge g a b = true := by
            simpa [contains_edge, AL.contains, he1] using hold
          have hvv := hWF a b hold'
          exact ⟨hm1 a hvv.1, hm1 b hvv.2⟩
      · rw [if_neg hd] at hrest
        rcases Option.map_eq_some'.mp hrest with ⟨g2, hg2, hFr⟩
        obtain ⟨he2, hd2, hm2⟩ := insertNbr_cases hg2
        have hFr' : (Except.ok (), (⟨g2.vertices,
            AL.insert (AL.insert g2.edges (u, v) w) (v, u) w,
            g2.directed⟩ : SimpleGraph V W)) = r := by
          rw [← hFr]
          simp [hd]
        have hgfin : g' = ⟨g2.vertices,
            AL.insert (AL.insert g2.edges (u, v) w) (v, u) w, g2.directed⟩ := by
          rw [← hg', ← hFr']
        rw [hgfin]
        intro a b hab
        have hab' : AL.contains (AL.insert (AL.insert g2.edges (u, v) w) (v, u) w)
            (a, b) = true := hab
        rcases (AL.contains_insert _ (v, u) (a, b) w).mp hab' with hk | hold
        · have ha : a = v := congrArg Prod.fst hk
          have hb : b = u := congrArg Prod.snd hk
          subst ha
          subst hb
          exact ⟨hm2 a (hm1 a hv), hm2 b (hm1 b hu)⟩
        · rcases (AL.contains_insert g2.edges (u, v) (a, b) w).mp hold with hk | hold2
          · have ha : a = u := congrArg Prod.fst hk
            have hb : b = v := congrArg Prod.snd hk
            subst ha
            subst hb
            exact ⟨hm2 a (hm1 a hu), hm2 b (hm1 b hv)⟩
          · have hold' : contains_edge g a b = true := by
              simpa [contains_edge, AL.contains, he2, he1] using hold2
            have hvv := hWF a b hold'
            exact ⟨hm2 a (hm1 a hvv.1), hm2 b (hm1 b hvv.2)⟩
  | removeIsolated =>
    simp only [applyOp, Option.some_inj] at h
    subst h
    by_cases hne : (isolated_vertices g).isEmpty = true
    · simpa [remove_isolated_vertices, hne] using hWF
    · have hne' : (isolated_vertices g).isEmpty = false := by
        cases hcc : (isolated_vertices g).isEmpty
        · rfl
        · exact absurd hcc hne
      simp only [remove_isolated_vertices, hne', Bool.false_eq_true, if_false]
      have : ∀ (L : List V) (h0 : SimpleGraph V W), WFedges h0 →
          WFedges (remove_vertices_loop L h0).2 := by
        intro L
        induction L with
        | nil => intro h0 hh; exact hh
        | cons x xs ih =>
          intro h0 hh
          simp only [remove_vertices_loop]
          cases hr : remove_vertex h0 x with
          | mk res hg2 =>
            have hwf2 : WFedges hg2 := by
              have := wf_remove_vertex h0 x hh
              rw [hr] at this
              exact this
            cases res with
            | ok _ => exact ih hg2 hwf2
            | error e => exact hwf2
      exact this (isolated_vertices g) g hWF

/-- Under the weight-map key invariant no public call panics: every
internal `unwrap` is reached with a present key. -/
theorem applyOp_ne_none (g : SimpleGraph V W) (op : Op V W) (hWF : WFedges g) :
    applyOp g op ≠ none := by
  cases op with
  | addVertex x => simp [applyOp]
  | removeVertex x => simp [applyOp]
  | removeIsolated => simp [applyOp]
  | addEdge u v =>
    simp only [applyOp]
    by_cases hcond : (!contains_vertex g u || !contains_vertex g v) = true
    · simp [add_edge, hcond]
    · by_cases hce : contains_edge g u v = true
      · rw [add_edge, if_neg (by simpa using hcond), if_pos hce]
        simp
      · have hboth : contains_vertex g u = true ∧ contains_vertex g v = true := by
          have hc := Bool.eq_false_iff.mpr hcond
          simpa using hc
        obtain ⟨hu, hv⟩ := hboth
        rw [add_edge, if_neg (by simpa using hcond), if_neg hce]
        obtain ⟨s, hs⟩ := Option.isSome_iff_exists.mp
          (hu : (AL.lookup g.vertices u).isSome = true)
        have h1 : (insertNbr g u v).isSome = true := by simp [insertNbr, hs]
        obtain ⟨g1, hg1⟩ := Option.isSome_iff_exists.mp h1
        rw [hg1]
        simp only [Option.some_bind]
        by_cases hd : g.directed = true
        · simp [hd]
        · rw [if_neg hd]
          have hv1 : contains_vertex g1 v = true := (insertNbr_cases hg1).2.2 v hv
          obtain ⟨t, ht⟩ := Option.isSome_iff_exists.mp
            (hv1 : (AL.lookup g1.vertices v).isSome = true)
          simp [insertNbr, ht]
  | removeEdge u v =>
    simp only [applyOp]
    by_cases hce : contains_edge g u v = true
    · obtain ⟨hu, hv⟩ := hWF u v hce
      simp only [remove_edge, Bool.not_eq_true', Bool.eq_false_iff]
      rw [if_neg (by simp [hce])]
      obtain ⟨s, hs⟩ := Option.isSome_iff_exists.mp
        (hu : (AL.lookup g.vertices u).isSome = true)
      have h1 : (eraseNbr ({ g with edges := AL.erase g.edges (u, v) }) u v).isSome
          = true := by
        simp [eraseNbr]
        exact Option.isSome_iff_exists.mpr ⟨s, hs⟩
      obtain ⟨g2, hg2⟩ := Option.isSome_iff_exists.mp h1
      rw [hg2]
      simp only [Option.some_bind]
      by_cases hd : g.directed = true
      · simp [hd]
      · rw [if_neg hd]
        have hv2 : contains_vertex g2 v = true := by
          refine (eraseNbr_cases hg2).2.2 v ?_
          exact hv
        obtain ⟨t, ht⟩ := Option.isSome_iff_exists.mp
          (hv2 : (AL.lookup g2.vertices v).isSome = true)
        simp [eraseNbr, ht]
    · have hce' : contains_edge g u v = false := Bool.eq_false_iff.mpr hce
      simp [remove_edge, hce']
  | setEdgeWeight u v w =>
    simp only [applyOp]
    by_cases hcond : (!contains_vertex g u || !contains_vertex g v) = true
    · simp [set_edge_weight, hcond]
    · have hboth : contains_vertex g u = true ∧ contains_vertex g v = true := by
        have hc := Bool.eq_false_iff.mpr hcond
        simpa using hc
      obtain ⟨hu, hv⟩ := hboth
      rw [set_edge_weight, if_neg (by simpa using hcond)]
      obtain ⟨s, hs⟩ := Option.isSome_iff_exists.mp
        (hu : (AL.lookup g.vertices u).isSome = true)
      have h1 : (insertNbr g u v).isSome = true := by simp [insertNbr, hs]
      obtain ⟨g1, hg1⟩ := Option.isSome_iff_exists.mp h1
      rw [hg1]
      simp only [Option.some_bind]
      by_cases hd : g.directed = true
      · simp [hd]
      · rw [if_neg hd]
        have hv1 : contains_vertex g1 v = true := (insertNbr_cases hg1).2.2 v hv
        obtain ⟨t, ht⟩ := Option.isSome_iff_exists.mp
          (hv1 : (AL.lookup g1.vertices v).isSome = true)
        simp [insertNbr, ht]

/-- C6: in every reachable graph state, every key `(a, b)` of the weight
map has both endpoints present in the vertex map, and no public mutating
call panics (the internal unwraps following a successful containment check
are unreachable). -/
theorem C6_no_panic (g : SimpleGraph V W) (h : Reachable g) :
    WFedges g ∧ ∀ op : Op V W, applyOp g op ≠ none := by
  obtain ⟨d, ops, hrun⟩ := h
  have hWF : WFedges g :=
    run_inv WFedges (fun _ => true) (fun g1 op g2 _ => wf_step g1 op g2) ops
      (new d) g (fun _ _ => rfl)
      (fun a b hab => absurd hab (by simp [contains_edge, AL.contains, new, AL.lookup]))
      hrun
  exact ⟨hWF, fun op => applyOp_ne_none g op hWF⟩

end Claim6

/-- C6 witness: a concrete reachable graph satisfies the weight-map key
invariant at `(1, 2)` and `remove_edge(1, 2)` does not panic on it. -/
theorem C6_witness :
    (contains_vertex exGraphC6 1 = true ∧ contains_vertex exGraphC6 2 = true) ∧
    applyOp exGraphC6 (Op.removeEdge 1 2) ≠ none := by
  have h := C6_no_panic exGraphC6
    ⟨false, [Op.addVertex 1, Op.addVertex 2, Op.setEdgeWeight 1 2 7], rfl⟩
  exact ⟨h.1 1 2 (by decide), h.2 (Op.removeEdge 1 2)⟩

section Claim1

variable {V W : Type} [DecidableEq V]

/-- Every public call leaves the directedness flag alone. -/
theorem remove_vertex_directed (g : SimpleGraph V W) (x : V) :
    (remove_vertex g x).2.directed = g.directed := by
  by_cases hc : (AL.lookup g.vertices x).isSome = true
  · simp [remove_vertex, contains_vertex, AL.contains, hc]
  · have hc' : (AL.lookup g.vertices x).isSome = false := by
      cases hcc : (AL.lookup g.vertices x).isSome
      · rfl
      · exact absurd hcc hc
    simp [remove_vertex, contains_vertex, AL.contains, hc']

/-- `remove_vertex` keeps `contains_edge` symmetric: the weight entries are
retained through a predicate that is symmetric in the two endpoints. -/
theorem edgeSym_remove_vertex (g : SimpleGraph V W) (x : V) (hsym : EdgeSym g) :
    EdgeSym (remove_vertex g x).2 := by
  by_cases hc : (AL.lookup g.vertices x).isSome = true
  · have hg : (remove_vertex g x).2
        = ⟨AL.mapVals (fun nbrs => nbrs.erase x) (AL.erase g.vertices x),
           g.edges.filter (fun p => decide (p.1.1 ≠ x) && decide (p.1.2 ≠ x)),
           g.directed⟩ := by
      simp [remove_vertex, contains_vertex, AL.contains, hc]
    rw [hg]
    intro a b
    show (AL.lookup (g.edges.filter
        (fun p => decide (p.1.1 ≠ x) && decide (p.1.2 ≠ x))) (a, b)).isSome
      = (AL.lookup (g.edges.filter
        (fun p => decide (p.1.1 ≠ x) && decide (p.1.2 ≠ x))) (b, a)).isSome
    have h1 := AL.lookup_filter_key
      (fun k : V × V => decide (k.1 ≠ x) && decide (k.2 ≠ x)) g.edges (a, b)
    have h2 := AL.lookup_filter_key
      (fun k : V × V => decide (k.1 ≠ x) && decide (k.2 ≠ x)) g.edges (b, a)
    have hsym' : (AL.lookup g.edges (a, b)).isSome
        = (AL.lookup g.edges (b, a)).isSome := hsym a b
    rw [h1, h2]
    by_cases hax : a = x
    · simp [hax]
    · by_cases hbx : b = x
      · simp [hbx]
      · simp [hax, hbx, hsym']
  · have hc' : (AL.lookup g.vertices x).isSome = false := by
      cases hcc : (AL.lookup g.vertices x).isSome
      · rfl
      · exact absurd hcc hc
    have hg : (remove_vertex g x).2 = g := by
      simp [remove_vertex, contains_vertex, AL.contains, hc']
    rw [hg]
    exact hsym

/-- Any call except `remove_edge` keeps the graph undirected and
`contains_edge` symmetric. -/
theorem edgeSym_step (g : SimpleGraph V W) (op : Op V W) (g' : SimpleGraph V W)
    (hQ : notRemoveEdge op = true)
    (hP : g.directed = false ∧ EdgeSym g) (h : applyOp g op = some g') :
    g'.directed = false ∧ EdgeSym g' := by
  obtain ⟨hdir, hsym⟩ := hP
  cases op with
  | addVertex x =>
    simp only [applyOp, Option.some_inj] at h
    subst h
    by_cases hc : contains_vertex g x = true
    · simpa [add_vertex, hc] using ⟨hdir, hsym⟩
    · have hc' : contains_vertex g x = false := Bool.eq_false_iff.mpr hc
      constructor
      · simpa [add_vertex, hc'] using hdir
      · intro a b
        simpa [add_vertex, hc', contains_edge, AL.contains] using hsym a b
  | removeVertex x =>
    simp only [applyOp, Option.some_inj] at h
    subst h
    exact ⟨(remove_vertex_directed g x).trans hdir, edgeSym_remove_vertex g x hsym⟩
  | addEdge u v =>
    simp only [applyOp] at h
    rcases Option.map_eq_some'.mp h with ⟨r, hr, hg'⟩
    by_cases hcond : (!contains_vertex g u || !contains_vertex g v) = true
    · rw [add_edge, if_pos hcond] at hr
      cases hr
      cases hg'
      exact ⟨hdir, hsym⟩
    · rw [add_edge, if_neg (by simpa using hcond)] at hr
      by_cases hce : contains_edge g u v = true
      · rw [if_pos hce] at hr
        cases hr
        cases hg'
        exact ⟨hdir, hsym⟩
      · rw [if_neg hce] at hr
        rcases Option.bind_eq_some.mp hr with ⟨g1, hg1, hrest⟩
        obtain ⟨he1, hd1, _⟩ := insertNbr_cases hg1
        rw [if_neg (by rw [hdir]; simp)] at hrest
        rcases Option.map_eq_some'.mp hrest with ⟨g2, hg2, hpair⟩
        obtain ⟨he2, hd2, _⟩ := insertNbr_cases hg2
        have hg2' : g' = g2 := by
          rw [← hg', ← hpair]
        subst hg2'
        refine ⟨hd2.trans (hd1.trans hdir), ?_⟩
        intro a b
        have hedges : g'.edges = g.edges := he2.trans he1
        simpa [contains_edge, AL.contains, hedges] using hsym a b
  | removeEdge u v => exact absurd hQ (by simp [notRemoveEdge])
  | setEdgeWeight u v w =>
    simp only [applyOp] at h
    rcases Option.map_eq_some'.mp h with ⟨r, hr, hg'⟩
    by_cases hcond : (!contains_vertex g u || !contains_vertex g v) = true
    · rw [set_edge_weight, if_pos hcond] at hr
      cases hr
      cases hg'
      exact ⟨hdir, hsym⟩
    · rw [set_edge_weight, if_neg (by simpa using hcond)] at hr
      rcases Option.bind_eq_some.mp hr with ⟨g1, hg1, hrest⟩
      obtain ⟨he1, hd1, _⟩ := insertNbr_cases hg1
      have hdfalse : ¬ g.directed = true := by rw [hdir]; simp
      rw [if_neg hdfalse] at hrest
      rcases Option.map_eq_some'.mp hrest with ⟨g2, hg2, hFr⟩
      obtain ⟨he2, hd2, _⟩ := insertNbr_cases hg2
      have hFr' : (Except.ok (), (⟨g2.vertices,
          AL.insert (AL.insert g2.edges (u, v) w) (v, u) w,
          g2.directed⟩ : SimpleGraph V W)) = r := by
        rw [← hFr]
        simp [hdfalse]
      have hgfin : g' = ⟨g2.vertices,
          AL.insert (AL.insert g2.edges (u, v) w) (v, u) w, g2.directed⟩ := by
        rw [← hg', ← hFr']
      subst hgfin
      refine ⟨hd2.trans (hd1.trans hdir), ?_⟩
      intro a b
      have hedges : g2.edges = g.edges := he2.trans he1
      show (AL.lookup (AL.insert (AL.insert g2.edges (u, v) w) (v, u) w)
          (a, b)).isSome
        = (AL.lookup (AL.insert (AL.insert g2.edges (u, v) w) (v, u) w)
          (b, a)).isSome
      have hiff : ∀ c d : V,
          (AL.lookup (AL.insert (AL.insert g2.edges (u, v) w) (v, u) w)
            (c, d)).isSome = true
          ↔ ((c, d) = (v, u) ∨ (c, d) = (u, v)
              ∨ (AL.lookup g.edges (c, d)).isSome = true) := by
        intro c d
        constructor
        · intro hcd
          rcases (AL.contains_insert _ (v, u) (c, d) w).mp hcd with hk | hold
          · exact Or.inl hk
          · rcases (AL.contains_insert g2.edges (u, v) (c, d) w).mp hold with hk | hold2
            · exact Or.inr (Or.inl hk)
            · exact Or.inr (Or.inr (by rwa [hedges] at hold2))
        · intro hcd
          rcases hcd with hk | hk | hold
          · exact (AL.contains_insert _ (v, u) (c, d) w).mpr (Or.inl hk)
          · exact (AL.contains_insert _ (v, u) (c, d) w).mpr
              (Or.inr ((AL.contains_insert g2.edges (u, v) (c, d) w).mpr (Or.inl hk)))
          · exact (AL.contains_insert _ (v, u) (c, d) w).mpr
              (Or.inr ((AL.contains_insert g2.edges (u, v) (c, d) w).mpr
                (Or.inr (by rwa [hedges]))))
      have hsym' : (AL.lookup g.edges (a, b)).isSome
          = (AL.lookup g.edges (b, a)).isSome := hsym a b
      rw [Bool.eq_iff_iff, hiff a b, hiff b a]
      constructor
      · intro hcase
        rcases hcase with hk | hk | hold
        · exact Or.inr (Or.inl (by
            simp only [Prod.mk.injEq] at hk ⊢
            exact ⟨hk.2, hk.1⟩))
        · exact Or.inl (by
            simp only [Prod.mk.injEq] at hk ⊢
            exact ⟨hk.2, hk.1⟩)
        · exact Or.inr (Or.inr (by rw [← hsym']; exact hold))
      · intro hcase
        rcases hcase with hk | hk | hold
        · exact Or.inr (Or.inl (by
            simp only [Prod.mk.injEq] at hk ⊢
            exact ⟨hk.2, hk.1⟩))
        · exact Or.inl (by
            simp only [Prod.mk.injEq] at hk ⊢
            exact ⟨hk.2, hk.1⟩)
        · exact Or.inr (Or.inr (by rw [hsym']; exact hold))
  | removeIsolated =>
    simp only [applyOp, Option.some_inj] at h
    subst h
    by_cases hne : (isolated_vertices g).isEmpty = true
    · simpa [remove_isolated_vertices, hne] using ⟨hdir, hsym⟩
    · have hne' : (isolated_vertices g).isEmpty = false := Bool.eq_false_iff.mpr hne
      simp only [remove_isolated_vertices, hne', Bool.false_eq_true, if_false]
      have : ∀ (L : List V) (h0 : SimpleGraph V W),
          h0.directed = false ∧ EdgeSym h0 →
          (remove_vertices_loop L h0).2.directed = false ∧
            EdgeSym (remove_vertices_loop L h0).2 := by
        intro L
        induction L with
        | nil => intro h0 hh; exact hh
        | cons x xs ih =>
          intro h0 hh
          simp only [remove_vertices_loop]
          cases hr : remove_vertex h0 x with
          | mk res hg2 =>
            have hh2 : hg2.directed = false ∧ EdgeSym hg2 := by
              have hda := remove_vertex_directed h0 x
              have hsa := edgeSym_remove_vertex h0 x hh.2
              rw [hr] at hda hsa
              exact ⟨hda.trans hh.1, hsa⟩
            cases res with
            | ok _ => exact ih hg2 hh2
            | error e => exact hh2
      exact this (isolated_vertices g) g ⟨hdir, hsym⟩

/-- C1 (amended): on an undirected graph, `contains_edge(u,v) ==
contains_edge(v,u)` holds after any sequence of public calls that does not
use `remove_edge` (in particular any sequence of `add_vertex`, `add_edge`
and `set_edge_weight` calls starting from an empty graph); `remove_edge`
erases only the `(u,v)` weight entry and can break the symmetry. -/
theorem C1_symmetry_amended (ops : List (Op V W)) (g g' : SimpleGraph V W)
    (hops : ∀ op ∈ ops, notRemoveEdge op = true)
    (hdir : g.directed = false) (hsym : EdgeSym g)
    (hrun : run ops g = some g') : EdgeSym g' :=
  (run_inv (fun h => h.directed = false ∧ EdgeSym h) notRemoveEdge
    edgeSym_step ops g g' hops ⟨hdir, hsym⟩ hrun).2

end Claim1

/-- C1 witness: a concrete `remove_edge`-free run ends in a graph with
symmetric `contains_edge` at `(0, 1)`. -/
theorem C1_witness :
    contains_edge exGraphC1 0 1 = contains_edge exGraphC1 1 0 :=
  C1_symmetry_amended
    [Op.addVertex 0, Op.addVertex 1, Op.setEdgeWeight 0 1 5]
    (new false) exGraphC1 (by decide) rfl (fun _ _ => rfl) rfl 0 1

section Claim10

variable {V W : Type} [DecidableEq V]

/-- `insertNbr a b` with `a ≠ b` creates no self-loop. -/
theorem selfLoopFree_insertNbr {g g1 : SimpleGraph V W} {a b : V} (hab : a ≠ b)
    (hP : selfLoopFree g) (h : insertNbr g a b = some g1) : selfLoopFree g1 := by
  rcases Option.map_eq_some'.mp h with ⟨s, hs, hg⟩
  rw [← hg]
  intro p hp
  rcases AL.mem_insert hp with hpk | hpl
  · subst hpk
    intro hmem
    rcases Finset.mem_insert.mp hmem with hmem | hmem
    · exact hab hmem
    · exact hP (a, s) (AL.lookup_mem hs) hmem
  · exact hP p hpl

/-- `eraseNbr` creates no self-loop. -/
theorem selfLoopFree_eraseNbr {g g1 : SimpleGraph V W} {a b : V}
    (hP : selfLoopFree g) (h : eraseNbr g a b = some g1) : selfLoopFree g1 := by
  rcases Option.map_eq_some'.mp h with ⟨s, hs, hg⟩
  rw [← hg]
  intro p hp
  rcases AL.mem_insert hp with hpk | hpl
  · subst hpk
    intro hmem
    exact hP (a, s) (AL.lookup_mem hs) (Finset.mem_of_mem_erase hmem)
  · exact hP p hpl

/-- `remove_vertex` creates no self-loop. -/
theorem selfLoopFree_remove_vertex (g : SimpleGraph V W) (x : V)
    (hP : selfLoopFree g) : selfLoopFree (remove_vertex g x).2 := by
  by_cases hc : (AL.lookup g.vertices x).isSome = true
  · have hg : (remove_vertex g x).2
        = ⟨AL.mapVals (fun nbrs => nbrs.erase x) (AL.erase g.vertices x),
           g.edges.filter (fun p => decide (p.1.1 ≠ x) && decide (p.1.2 ≠ x)),
           g.directed⟩ := by
      simp [remove_vertex, contains_vertex, AL.contains, hc]
    rw [hg]
    intro p hp
    have hp' : p ∈ AL.mapVals (fun nbrs => nbrs.erase x)
        (AL.erase g.vertices x) := hp
    rcases AL.mem_mapVals hp' with ⟨q, hq, hpq⟩
    subst hpq
    intro hmem
    exact hP q (AL.mem_erase hq) (Finset.mem_of_mem_erase hmem)
  · have hc' : (AL.lookup g.vertices x).isSome = false := Bool.eq_false_iff.mpr hc
    have hg : (remove_vertex g x).2 = g := by
      simp [remove_vertex, contains_vertex, AL.contains, hc']
    rw [hg]
    exact hP

/-- A call with distinct endpoints preserves freedom from self-loops. -/
theorem selfLoopFree_step (g : SimpleGraph V W) (op : Op V W)
    (g' : SimpleGraph V W) (hQ : distinctEndpoints op = true)
    (hP : selfLoopFree g) (h : applyOp g op = some g') : selfLoopFree g' := by
  cases op with
  | addVertex x =>
    simp only [applyOp, Option.some_inj] at h
    subst h
    by_cases hc : contains_vertex g x = true
    · simpa [add_vertex, hc] using hP
    · have hc' : contains_vertex g x = false := Bool.eq_false_iff.mpr hc
      simp only [add_vertex, hc', Bool.false_eq_true, if_false]
      intro p hp
      rcases AL.mem_insert hp with hpk | hpl
      · subst hpk
        simp
      · exact hP p hpl
  | removeVertex x =>
    simp only [applyOp, Option.some_inj] at h
    subst h
    exact selfLoopFree_remove_vertex g x hP
  | addEdge u v =>
    have huv : u ≠ v := by simpa [distinctEndpoints] using hQ
    simp only [applyOp] at h
    rcases Option.map_eq_some'.mp h with ⟨r, hr, hg'⟩
    by_cases hcond : (!contains_vertex g u || !contains_vertex g v) = true
    · rw [add_edge, if_pos hcond] at hr
      cases hr
      cases hg'
      exact hP
    · rw [add_edge, if_neg (by simpa using hcond)] at hr
      by_cases hce : contains_edge g u v = true
      · rw [if_pos hce] at hr
        cases hr
        cases hg'
        exact hP
      · rw [if_neg hce] at hr
        rcases Option.bind_eq_some.mp hr with ⟨g1, hg1, hrest⟩
        have hP1 := selfLoopFree_insertNbr huv hP hg1
        by_cases hd : g.directed = true
        · rw [if_pos hd] at hrest
          cases hrest
          cases hg'
          exact hP1
        · rw [if_neg hd] at hrest
          rcases Option.map_eq_some'.mp hrest with ⟨g2, hg2, hpair⟩
          have hg2' : g' = g2 := by
            rw [← hg', ← hpair]
          subst hg2'
          exact selfLoopFree_insertNbr huv.symm hP1 hg2
  | removeEdge u v =>
    simp only [applyOp] at h
    rcases Option.map_eq_some'.mp h with ⟨r, hr, hg'⟩
    by_cases hce : contains_edge g u v = true
    · rw [remove_edge, if_neg (by simp [hce])] at hr
      rcases Option.bind_eq_some.mp hr with ⟨g2, hg2, hrest⟩
      have hP1 : selfLoopFree ({ g with edges := AL.erase g.edges (u, v) }
          : SimpleGraph V W) := hP
      have hP2 := selfLoopFree_eraseNbr hP1 hg2
      by_cases hd : g.directed = true
      · rw [if_pos hd] at hrest
        cases hrest
        cases hg'
        exact hP2
      · rw [if_neg hd] at hrest
        rcases Option.map_eq_some'.mp hrest with ⟨g3, hg3, hpair⟩
        have hg3' : g' = g3 := by
          rw [← hg', ← hpair]
        subst hg3'
        exact selfLoopFree_eraseNbr hP2 hg3
    · have hce' : contains_edge g u v = false := Bool.eq_false_iff.mpr hce
      rw [remove_edge, if_pos (by simp [hce'])] at hr
      cases hr
      cases hg'
      exact hP
  | setEdgeWeight u v w =>
    have huv : u ≠ v := by simpa [distinctEndpoints] using hQ
    simp only [applyOp] at h
    rcases Option.map_eq_some'.mp h with ⟨r, hr, hg'⟩
    by_cases hcond : (!contains_vertex g u || !contains_vertex g v) = true
    · rw [set_edge_weight, if_pos hcond] at hr
      cases hr
      cases hg'
      exact hP
    · rw [set_edge_weight, if_neg (by simpa using hcond)] at hr
      rcases Option.bind_eq_some.mp hr with ⟨g1, hg1, hrest⟩
      have hP1 := selfLoopFree_insertNbr huv hP hg1
      by_cases hd : g.directed = true
      · rw [if_pos hd] at hrest
        simp only [Option.map_some', Option.some_inj] at hrest
        have hrest' : (Except.ok (), (⟨g1.vertices, AL.insert g1.edges (u, v) w,
            g1.directed⟩ : SimpleGraph V W)) = r := by
          rw [← hrest]
          simp [hd]
        have hgfin : g' = ⟨g1.vertices, AL.insert g1.edges (u, v) w,
            g1.directed⟩ := by
          rw [← hg', ← hrest']
        subst hgfin
        exact hP1
      · rw [if_neg hd] at hrest
        rcases Option.map_eq_some'.mp hrest with ⟨g2, hg2, hFr⟩
        have hP2 := selfLoopFree_insertNbr huv.symm hP1 hg2
        have hFr' : (Except.ok (), (⟨g2.vertices,
            AL.insert (AL.insert g2.edges (u, v) w) (v, u) w,
            g2.directed⟩ : SimpleGraph V W)) = r := by
          rw [← hFr]
          simp [hd]
        have hgfin : g' = ⟨g2.vertices,
            AL.insert (AL.insert g2.edges (u, v) w) (v, u) w, g2.directed⟩ := by
          rw [← hg', ← hFr']
        subst hgfin
        exact hP2
  | removeIsolated =>
    simp only [applyOp, Option.some_inj] at h
    subst h
    by_cases hne : (isolated_vertices g).isEmpty = true
    · simpa [remove_isolated_vertices, hne] using hP
    · have hne' : (isolated_vertices g).isEmpty = false := Bool.eq_false_iff.mpr hne
      simp only [remove_isolated_vertices, hne', Bool.false_eq_true, if_false]
      have : ∀ (L : List V) (h0 : SimpleGraph V W), selfLoopFree h0 →
          selfLoopFree (remove_vertices_loop L h0).2 := by
        intro L
        induction L with
        | nil => intro h0 hh; exact hh
        | cons x xs ih =>
          intro h0 hh
          simp only [remove_vertices_loop]
          cases hr : remove_vertex h0 x with
          | mk res hg2 =>
            have hh2 : selfLoopFree hg2 := by
              have := selfLoopFree_remove_vertex h0 x hh
              rw [hr] at this
              exact this
            cases res with
            | ok _ => exact ih hg2 hh2
            | error e => exact hh2
      exact this (isolated_vertices g) g hP

/-- C10 (amended): a graph reached from an empty graph by public calls in
which `add_edge` and `set_edge_weight` are never given two equal endpoints
has no vertex in its own neighbor set; `add_edge(u,u)` and
`set_edge_weight(u,u,w)` on a present vertex `u` do create self-loops. -/
theorem C10_no_self_loops (ops : List (Op V W)) (d : Bool)
    (g : SimpleGraph V W)
    (hops : ∀ op ∈ ops, distinctEndpoints op = true)
    (hrun : run ops (new d) = some g) : selfLoopFree g :=
  run_inv selfLoopFree distinctEndpoints selfLoopFree_step ops (new d) g hops
    (fun p hp => absurd hp (List.not_mem_nil p)) hrun

end Claim10

/-- C10 witness: a concrete run whose edge calls have distinct endpoints
ends in a self-loop-free graph. -/
theorem C10_witness : selfLoopFree exGraphC10 :=
  C10_no_self_loops [Op.addVertex 1, Op.addVertex 2, Op.addEdge 1 2] false
    exGraphC10 (by decide) rfl

end KamboGraph
